import Mathlib

/-!
A shallow embedding of the `llm-gen` HTML-to-text pipeline (`src/index.js`)
together with proofs about its extraction, aggregation, formatting and
concurrency behaviour.

Conventions of the embedding:
* File-system paths are modelled as lists of path segments of an absolute,
  normalized path (`AbsPath`).  `path.relative` and string rendering of paths
  are modelled explicitly below.
* The file system is a record of two functions: `read` (file contents or an
  error message, modelling `fs.readFile`) and `statSize` (modelling `fs.stat`,
  `none` when the stat fails).
* The DOM query capability of cheerio (`$(...).text()` after the noise-removal
  block, lines 216-228 of `src/index.js`) is passed in as an abstract function
  `q : String → String → String` mapping the raw html and a selector to the
  selected text, and the SHA-256 digest is passed in as an abstract function
  `hash : String → String`; both are external collaborators of the core.
* JavaScript string lengths are modelled by Lean character counts (they agree
  for all strings without surrogate pairs).
-/

/-- Model of the JavaScript `\s` character class (the whitespace characters
relevant to `String.prototype.trim` and the `/\s+/g` replace on line 243). -/
def jsWs (c : Char) : Bool :=
  c == ' ' || c == '\t' || c == '\n' || c == '\r' || c == '\x0b' || c == '\x0c' ||
  c == ' '

/-- Model of JS `String.prototype.trim` on character lists: drop `\s`
characters from both ends. -/
def trimChars (l : List Char) : List Char :=
  ((l.dropWhile jsWs).reverse.dropWhile jsWs).reverse

/-- Model of JS `String.prototype.trim`. -/
def jsTrimStr (s : String) : String :=
  String.mk (trimChars s.data)

/-- Model of the regex replace `text.replace(/\s+/g, ' ')` (line 243 of
`src/index.js`): every maximal run of whitespace characters is replaced by a
single space. -/
def collapseChars : List Char → List Char
  | [] => []
  | [c] => [if jsWs c then ' ' else c]
  | c :: d :: cs =>
    if jsWs c && jsWs d then collapseChars (d :: cs)
    else (if jsWs c then ' ' else c) :: collapseChars (d :: cs)

/-- Scan for the first occurrence of `cl`, returning the characters after it.
Fails (`none`) when a line terminator is reached first, because `.` in a JS
regex does not match line terminators, so `/\[.*?\]/` cannot match across
them. -/
def findClose (cl : Char) : List Char → Option (List Char)
  | [] => none
  | c :: cs =>
    if c = cl then some cs
    else if c = '\n' ∨ c = '\r' then none
    else findClose cl cs

theorem findClose_length {cl : Char} :
    ∀ {l r : List Char}, findClose cl l = some r → r.length < l.length := by
  intro l
  induction l with
  | nil => intro r h; simp [findClose] at h
  | cons c cs ih =>
    intro r h
    simp only [findClose] at h
    split at h
    · cases h; simp
    · split at h
      · cases h
      · have := ih h
        simp only [List.length_cons]
        omega

/-- Model of the regex replace `text.replace(/\[.*?\]/g, '')` (and the
analogous `\{.*?\}` replace) on line 243 of `src/index.js`: scanning left to
right, each occurrence of the opening delimiter followed (lazily) by the
nearest closing delimiter on the same line is deleted together with everything
between them; an opening delimiter with no closing delimiter is kept. -/
def stripDelims (o cl : Char) : List Char → List Char
  | [] => []
  | x :: xs =>
    if x = o then
      match h : findClose cl xs with
      | some rest => stripDelims o cl rest
      | none => x :: stripDelims o cl xs
    else x :: stripDelims o cl xs
termination_by l => l.length
decreasing_by
  · have := findClose_length h
    simp only [List.length_cons]
    omega
  · simp
  · simp

/-- The sanitization/normalization chain of line 243 of `src/index.js`:
`text.replace(/\s+/g, ' ').replace(/\[.*?\]/g, '').replace(/\{.*?\}/g, '').trim()`. -/
def normalizeText (t : String) : String :=
  String.mk (trimChars (stripDelims '\x7b' '\x7d' (stripDelims '[' ']' (collapseChars t.data))))

/-! ## Path model

Absolute paths are lists of segments; `pathRelative` models Node's
`path.relative` on resolved absolute paths and `joinSegs` renders a segment
list with `/` separators. -/

abbrev AbsPath := List String

/-- Length of the common prefix of two segment lists. -/
def commonPrefixLen : List String → List String → Nat
  | a :: as, b :: bs => if a = b then commonPrefixLen as bs + 1 else 0
  | _, _ => 0

/-- Model of Node `path.relative(fromP, toP)` on resolved absolute paths,
returning the segment list of the relative path: one `..` for every segment of
`fromP` past the common prefix, then the remainder of `toP`. -/
def pathRelative (fromP toP : AbsPath) : List String :=
  List.replicate (fromP.length - commonPrefixLen fromP toP) ".." ++
    toP.drop (commonPrefixLen fromP toP)

/-- Render a relative path's segments with `/` separators (Node joins the
computed segments with the platform separator; we model the POSIX one). -/
def joinSegs : List String → String
  | [] => ""
  | [s] => s
  | s :: rest => s ++ "/" ++ joinSegs rest

/-- The rendered form of `path.relative(root, p)`, used by `src/index.js` with
`root = process.cwd()` (lines 358 and 394) and with `root = SRC_DIR`
(lines 135 and 156). -/
def relTo (root p : AbsPath) : String :=
  joinSegs (pathRelative root p)

/-- Rendering of a resolved absolute path (used for the `Source directory`
header line and the `source` field of `pages.json`). -/
def renderAbs (p : AbsPath) : String :=
  "/" ++ joinSegs p

/-! ## Text Extractor (`extractTextFromHTML`, lines 206-257) -/

/-- The fixed content-selector priority list of line 231 of `src/index.js`. -/
def selectors : List String :=
  ["main", "article", "[role=\"main\"]", ".main-content", ".content", ".prose",
   ".container", "body"]

/-- The loop condition of line 235: `t && t.trim().length > 50`. -/
def qualifies (t : String) : Bool :=
  t ≠ "" && (jsTrimStr t).length > 50

/-- The selector loop of lines 232-239: try each selector in order and return
the text of the first one whose trimmed text has more than 50 characters. -/
def firstQualifying (q : String → String) : List String → Option String
  | [] => none
  | sel :: rest =>
    let t := q sel
    if qualifies t then some t else firstQualifying q rest

/-- Lines 231-240 of `src/index.js`: the selector loop followed by the
`if (!text) text = $('body').text() || ''` fallback. -/
def pickContent (q : String → String) : String :=
  match firstQualifying q selectors with
  | some t => t
  | none => q "body"

/-- The abstract file system consumed by the pipeline: `read` models
`fs.readFile(path, 'utf8')` (`Except.error` is a rejected promise carrying
`err.message`), `statSize` models `fs.stat(path)` (`none` is a rejected stat
promise). -/
structure FS where
  read : AbsPath → Except String String
  statSize : AbsPath → Option Nat

/-- Whether a read succeeds (used to phrase decidable hypotheses). -/
def readOk (fs : FS) (p : AbsPath) : Bool :=
  match fs.read p with
  | .ok _ => true
  | .error _ => false

/-- The value returned by `extractTextFromHTML` (lines 206-257): the file
path, the extracted text, and the error message when the read failed. -/
structure ExtractOut where
  filePath : AbsPath
  text : String
  error? : Option String
deriving DecidableEq, Repr

/-- `extractTextFromHTML` (lines 206-257 of `src/index.js`).  A failing read
is caught and returned as data (`error?`); an empty or whitespace-only file
returns empty text with no error; otherwise the selector heuristic picks the
content and line 243 normalizes it.  The cheerio parse + noise removal is the
abstract collaborator `q`. -/
def extractTextFromHTML (q : String → String → String) (fs : FS)
    (filePath : AbsPath) : ExtractOut :=
  match fs.read filePath with
  | .error err => { filePath := filePath, text := "", error? := some err }
  | .ok html =>
    if jsTrimStr html = "" then
      { filePath := filePath, text := "", error? := none }
    else
      { filePath := filePath, text := normalizeText (pickContent (q html)),
        error? := none }

/-! ## Executor task body (`main`, lines 384-401) -/

/-- One element of the `extracted` array built by the task closure of
lines 385-401: path, path relative to the working directory, stat'ed size
(0 when the stat fails), text length, text, content hash and error. -/
structure Extracted where
  path : AbsPath
  rel : String
  size : Nat
  textLength : Nat
  text : String
  hash : String
  error? : Option String
deriving DecidableEq, Repr

/-- The per-file task body of lines 385-401 of `src/index.js`: run
`extractTextFromHTML`, stat the file (`.catch(() => ({size: 0}))`), and build
the record.  `hash` is the SHA-256 collaborator (`sha256`, line 103). -/
def taskBody (q : String → String → String) (hash : String → String)
    (fs : FS) (cwd : AbsPath) (f : AbsPath) : Extracted :=
  let res := extractTextFromHTML q fs f
  let size := (fs.statSize f).getD 0
  { path := f
    rel := relTo cwd f
    size := size
    textLength := res.text.length
    text := res.text
    hash := hash res.text
    error? := res.error? }

/-- The fan-in of `Promise.all(tasks)` (line 403): one result per discovered
file, in task order.  (The bounded-concurrency scheduling is modelled
separately below; `execGather_of_terminal` shows any complete schedule
produces exactly this list.) -/
def executorResults (q : String → String → String) (hash : String → String)
    (fs : FS) (cwd : AbsPath) (files : List AbsPath) : List Extracted :=
  files.map (taskBody q hash fs cwd)

/-! ## Deterministic Aggregator (lines 405-415)

`extracted.sort((a, b) => a.rel.localeCompare(b.rel))` sorts with the
locale-aware collation of `String.prototype.localeCompare`, modelled here for
ASCII strings by the ICU root collation: a primary pass compares the strings
case-insensitively (each character by its lowercase code) and ties are broken
by a secondary pass in which lowercase sorts before uppercase. -/

/-- Lexicographic `≤` on lists of naturals (shared by the collation model and
by the spec-side plain code-unit comparison). -/
def ordListLe : List Nat → List Nat → Bool
  | [], _ => true
  | _ :: _, [] => false
  | a :: as, b :: bs =>
    if a < b then true else if b < a then false else ordListLe as bs

/-- Primary collation weight: characters compare by their lowercase code. -/
def primW (c : Char) : Nat := c.toLower.toNat

/-- Secondary (case) weight: lowercase before uppercase. -/
def caseW (c : Char) : Nat := if c.isUpper then 1 else 0

/-- Model of `a.localeCompare(b) <= 0` under the default ICU collation,
restricted to ASCII strings: compare primary weight sequences
lexicographically; on a primary tie compare the case weights. -/
def localeLe (a b : String) : Bool :=
  let pa := a.data.map primW
  let pb := b.data.map primW
  if pa = pb then ordListLe (a.data.map caseW) (b.data.map caseW)
  else ordListLe pa pb

/-- The comparator of line 406 of `src/index.js`, as a relation on result
records: `a.rel.localeCompare(b.rel) <= 0`. -/
def aggLe (a b : Extracted) : Prop := localeLe a.rel b.rel = true

instance : DecidableRel aggLe := fun a b => by
  unfold aggLe; infer_instance

/-- Line 406: `extracted.sort((a, b) => a.rel.localeCompare(b.rel))` — a
stable sort by the locale comparator on `rel`. -/
def sortedExtractions (l : List Extracted) : List Extracted :=
  List.insertionSort aggLe l

/-- Line 409: `extracted.filter(e => !e.error)`. -/
def successfulExtractions (l : List Extracted) : List Extracted :=
  (sortedExtractions l).filter (fun e => e.error?.isNone)

/-- The item shape consumed by the corpus writer and the TOC (lines 410-415). -/
structure OutItem where
  path : AbsPath
  text : String
  size : Nat
  textLength : Nat
deriving DecidableEq, Repr

/-- Lines 410-415: `itemsForOutput = successfulExtractions.map(...)`. -/
def itemsForOutput (l : List Extracted) : List OutItem :=
  (successfulExtractions l).map fun e =>
    { path := e.path, text := e.text, size := e.size, textLength := e.textLength }

/-- One record of the `pages` array of `pages.json` (lines 418-424). -/
structure PageRec where
  path : String
  size : Nat
  textLength : Nat
  hash : String
  error? : Option String
deriving DecidableEq, Repr

/-- Lines 418-424: `pagesJson = successfulExtractions.map(...)` — note the
records are built from the error-filtered slice. -/
def pagesJson (l : List Extracted) : List PageRec :=
  (successfulExtractions l).map fun e =>
    { path := e.rel, size := e.size, textLength := e.textLength,
      hash := e.hash, error? := e.error? }

/-! ## Table-of-Contents Formatter (`makeTocSection`, lines 123-177) -/

/-- Model of JS `String.prototype.padEnd(n, ' ')` (default pad). -/
def padEnd (s : String) (n : Nat) : String :=
  s ++ String.mk (List.replicate (n - s.length) ' ')

/-- Model of JS `String.prototype.padStart(n, ' ')` (default pad). -/
def padStart (s : String) (n : Nat) : String :=
  String.mk (List.replicate (n - s.length) ' ') ++ s

/-- Model of JS `Number.prototype.toLocaleString` for naturals in the default
locale: decimal digits with `,` grouping separators every three digits. -/
def group3 : List Char → List Char
  | a :: b :: c :: d :: rest => a :: b :: c :: ',' :: group3 (d :: rest)
  | l => l

/-- `n.toLocaleString()` for a natural number. -/
def toLocaleStr (n : Nat) : String :=
  String.mk ((group3 (toString n).data.reverse).reverse)

/-- The `headers` object of lines 128-132. -/
def tocHeaderPath : String := "File Path"

/-- The `Size` column header (line 130). -/
def tocHeaderSize : String := "Size"

/-- The `Chars` column header (line 131). -/
def tocHeaderChars : String := "Chars"

/-- Line 135: `Math.max(...items.map(item => path.relative(srcDir, item.path).length), headers.filePath.length)`. -/
def maxPathLength (items : List OutItem) (srcDir : AbsPath) : Nat :=
  items.foldl (fun m it => max m (relTo srcDir it.path).length) tocHeaderPath.length

/-- Line 136: `Math.max(...items.map(item => item.size.toString().length), headers.size.length)`. -/
def maxSizeLength (items : List OutItem) : Nat :=
  items.foldl (fun m it => max m (toString it.size).length) tocHeaderSize.length

/-- Line 137: `Math.max(...items.map(item => item.textLength.toString().length), headers.chars.length)`. -/
def maxCharsLength (items : List OutItem) : Nat :=
  items.foldl (fun m it => max m (toString it.textLength).length) tocHeaderChars.length

/-- `makeDivider` (lines 139-144), with the three column widths supplied. -/
def makeDivider (w1 w2 w3 : Nat) (left mid1 mid2 right : String) : String :=
  left ++ String.mk (List.replicate (w1 + 2) '═') ++
  mid1 ++ String.mk (List.replicate (w2 + 2) '═') ++
  mid2 ++ String.mk (List.replicate (w3 + 2) '═') ++
  right

/-- The `headerTop` divider of line 146. -/
def tocHeaderTop (items : List OutItem) (srcDir : AbsPath) : String :=
  makeDivider (maxPathLength items srcDir) (maxSizeLength items) (maxCharsLength items)
    "╔" "╤" "╤" "╗"

/-- The `headerMid` divider of line 147. -/
def tocHeaderMid (items : List OutItem) (srcDir : AbsPath) : String :=
  makeDivider (maxPathLength items srcDir) (maxSizeLength items) (maxCharsLength items)
    "╟" "┼" "┼" "╢"

/-- The `footerBot` divider of line 148. -/
def tocFooterBot (items : List OutItem) (srcDir : AbsPath) : String :=
  makeDivider (maxPathLength items srcDir) (maxSizeLength items) (maxCharsLength items)
    "╚" "╧" "╧" "╝"

/-- The header row of lines 150-153. -/
def tocHeaderRow (items : List OutItem) (srcDir : AbsPath) : String :=
  "║ " ++ padEnd tocHeaderPath (maxPathLength items srcDir) ++ " " ++
  "│ " ++ padStart tocHeaderSize (maxSizeLength items) ++ " " ++
  "│ " ++ padStart tocHeaderChars (maxCharsLength items) ++ " ║"

/-- One body row of the TOC table (lines 155-160). -/
def tocRow (srcDir : AbsPath) (w1 w2 w3 : Nat) (it : OutItem) : String :=
  "║ " ++ padEnd (relTo srcDir it.path) w1 ++ " " ++
  "│ " ++ padStart (toString it.size) w2 ++ " " ++
  "│ " ++ padStart (toString it.textLength) w3 ++ " ║"

/-- `makeTocSection` (lines 123-177 of `src/index.js`): the "no files"
sentinel for an empty input, otherwise the box-drawn table followed by the
summary block. -/
def makeTocSection (items : List OutItem) (srcDir : AbsPath) : String :=
  if items.length = 0 then "No files were processed."
  else
    let body := String.intercalate "\n"
      (items.map (tocRow srcDir (maxPathLength items srcDir) (maxSizeLength items)
        (maxCharsLength items)))
    let table := String.intercalate "\n"
      [tocHeaderTop items srcDir, tocHeaderRow items srcDir, tocHeaderMid items srcDir,
       body, tocFooterBot items srcDir]
    let summary := String.intercalate "\n"
      ["\nTotal files: " ++ toString items.length,
       "Total characters: " ++ toLocaleStr (items.foldl (fun sum it => sum + it.textLength) 0),
       ""]
    table ++ summary

/-! ## Streaming Corpus Writer (`makeFileHeader`, `generateLLMTextStream`) -/

/-- `makeFileHeader` (lines 112-115 of `src/index.js`). -/
def makeFileHeader (relPath : String) : String :=
  let line := String.mk (List.replicate 80 '═')
  "\n" ++ line ++ "\n 📄 FILE: " ++ relPath ++ "\n" ++ line ++ "\n"

/-- The per-file section written by the loop of lines 357-361: the header for
the path relative to the working directory, then the text or the
"no extractable text" sentinel. -/
def fileSection (cwd : AbsPath) (it : OutItem) : String :=
  makeFileHeader (relTo cwd it.path) ++ "\n" ++
  (if it.text ≠ "" then it.text ++ "\n\n" else "[No extractable text]\n\n")

/-- `generateLLMTextStream` (lines 342-364 of `src/index.js`) as the string it
streams to `llm.txt`: generation timestamp, source directory, file count,
TOC, then one section per item. -/
def generateLLMText (items : List OutItem) (srcDir cwd : AbsPath)
    (timestamp : String) : String :=
  "Generated: " ++ timestamp ++ "\n" ++
  "Source directory: " ++ renderAbs srcDir ++ "\n" ++
  "Files processed: " ++ toString items.length ++ "\n\n" ++
  (makeTocSection items srcDir ++ "\n") ++
  String.join (items.map (fileSection cwd))

/-! ## Index Writer (`pages.json`, lines 417-431) -/

/-- JSON string escaping as performed by `JSON.stringify`. -/
def jsonEscapeChar (c : Char) : String :=
  if c = '"' then "\\\""
  else if c = '\\' then "\\\\"
  else if c = '\n' then "\\n"
  else if c = '\r' then "\\r"
  else if c = '\t' then "\\t"
  else if c = '\x08' then "\\b"
  else if c = '\x0c' then "\\f"
  else if c.toNat < 32 then
    "\\u00" ++ String.mk [Nat.digitChar (c.toNat / 16), Nat.digitChar (c.toNat % 16)]
  else String.mk [c]

/-- A JSON string literal for `s`. -/
def jsonStr (s : String) : String :=
  "\"" ++ String.join (s.data.map jsonEscapeChar) ++ "\""

/-- One `pages` element as serialized by `JSON.stringify(..., null, 2)`. -/
def pageRecJsonLines (p : PageRec) : List String :=
  ["    \x7b",
   "      \"path\": " ++ jsonStr p.path ++ ",",
   "      \"size\": " ++ toString p.size ++ ",",
   "      \"textLength\": " ++ toString p.textLength ++ ",",
   "      \"hash\": " ++ jsonStr p.hash ++ ",",
   "      \"error\": " ++ (match p.error? with
                           | none => "null"
                           | some e => jsonStr e),
   "    \x7d"]

/-- The full `pages.json` document written by lines 426-430:
`JSON.stringify({generatedAt, source, pages}, null, 2)`. -/
def pagesJsonText (pages : List PageRec) (srcDir : AbsPath)
    (timestamp : String) : String :=
  String.intercalate "\n"
    (["\x7b",
      "  \"generatedAt\": " ++ jsonStr timestamp ++ ",",
      "  \"source\": " ++ jsonStr (renderAbs srcDir) ++ ",",
      "  \"pages\": " ++ (if pages.length = 0 then "[]" else "[")] ++
     (if pages.length = 0 then []
      else (String.intercalate ",\n" (pages.map (fun p => String.intercalate "\n" (pageRecJsonLines p)))) :: ["  ]"]) ++
     ["\x7d"])

/-! ## Bounded Concurrency Executor (lines 384-403)

`src/index.js` delegates the concurrency ceiling to the external `p-limit`
primitive: `const limit = pLimit(argv.concurrency)` and
`files.map(f => limit(async () => ...))`.  Modelled from the spec: the
bounded-parallelism primitive maintains a counting permit of `K` slots; a
queued task starts only while fewer than `K` tasks are running, tasks are
started in queue order, may finish in any order, and each finished task `i`
stores its (deterministic) result into slot `i` of the `Promise.all` fan-in.
The interleaving is the transition system below. -/

/-- A scheduler state: how many tasks have been started (tasks start in queue
order), which task indices are currently running their body, and the
`(index, result)` pairs already settled, in completion order. -/
structure ExecState (R : Type) where
  started : Nat
  running : List Nat
  results : List (Nat × R)

/-- One scheduler transition: `start` admits the next queued task while a
permit is free (`running.length < K`); `finish` settles any running task with
the result of its body. -/
inductive ExecStep (K N : Nat) (body : Nat → R) : ExecState R → ExecState R → Prop
  | start (s : ExecState R) (hq : s.started < N) (hp : s.running.length < K) :
      ExecStep K N body s
        { started := s.started + 1, running := s.started :: s.running,
          results := s.results }
  | finish (s : ExecState R) (i : Nat) (hi : i ∈ s.running) :
      ExecStep K N body s
        { started := s.started, running := s.running.erase i,
          results := s.results ++ [(i, body i)] }

/-- Reachability from the idle state under ceiling `K` with `N` queued tasks. -/
inductive ExecReach (K N : Nat) (body : Nat → R) : ExecState R → Prop
  | init : ExecReach K N body { started := 0, running := [], results := [] }
  | next (s s' : ExecState R) (hr : ExecReach K N body s)
      (hs : ExecStep K N body s s') : ExecReach K N body s'

/-- A run is complete once every task has been started and none is running. -/
def ExecDone (N : Nat) (s : ExecState R) : Prop :=
  s.started = N ∧ s.running = []

/-- The `Promise.all` fan-in: the settled value of each task slot, in task
order. -/
def execGather (d : R) (N : Nat) (s : ExecState R) : List R :=
  (List.range N).map fun i => ((s.results.lookup i).getD d)

/-- The body run for task index `i` by lines 385-401: the task closure over
the `i`-th discovered file. -/
def execBody (q : String → String → String) (hash : String → String)
    (fs : FS) (cwd : AbsPath) (files : List AbsPath) : Nat → Extracted :=
  fun i => taskBody q hash fs cwd (files.getD i [])

/-- A throwaway default result (never observed in a complete run). -/
def dfltExtracted : Extracted :=
  { path := [], rel := "", size := 0, textLength := 0, text := "", hash := "",
    error? := none }

theorem execReach_ceiling {R : Type} {K N : Nat} {body : Nat → R}
    {s : ExecState R} (h : ExecReach K N body s) : s.running.length ≤ K := by
  induction h with
  | init => simp
  | next s s' hr hs ih =>
    cases hs with
    | start hq hp => simpa using hp
    | finish i hi =>
      have hsub : (s.running.erase i).Sublist s.running := List.erase_sublist i s.running
      exact le_trans hsub.length_le ih

theorem execReach_results_body {R : Type} {K N : Nat} {body : Nat → R}
    {s : ExecState R} (h : ExecReach K N body s) :
    ∀ pr ∈ s.results, pr.2 = body pr.1 := by
  induction h with
  | init => simp
  | next s s' hr hs ih =>
    cases hs with
    | start hq hp => simpa using ih
    | finish i hi =>
      intro pr hpr
      simp only [List.mem_append, List.mem_singleton] at hpr
      rcases hpr with hpr | hpr
      · exact ih pr hpr
      · subst hpr; rfl

theorem execReach_mem_iff {R : Type} {K N : Nat} {body : Nat → R}
    {s : ExecState R} (h : ExecReach K N body s) :
    ∀ j, (j ∈ s.results.map Prod.fst ∨ j ∈ s.running) ↔ j < s.started := by
  induction h with
  | init => simp
  | next s s' hr hs ih =>
    cases hs with
    | start hq hp =>
      intro j
      simp only [List.mem_cons]
      constructor
      · rintro (hj | hj | hj)
        · exact lt_trans ((ih j).mp (Or.inl hj)) (Nat.lt_succ_self _)
        · omega
        · exact lt_trans ((ih j).mp (Or.inr hj)) (Nat.lt_succ_self _)
      · intro hj
        rcases Nat.lt_succ_iff_lt_or_eq.mp hj with hj | hj
        · rcases (ih j).mpr hj with hm | hm
          · exact Or.inl hm
          · exact Or.inr (Or.inr hm)
        · exact Or.inr (Or.inl hj)
    | finish i hi =>
      intro j
      rw [← ih j]
      simp only [List.map_append, List.map_cons, List.map_nil, List.mem_append,
        List.mem_singleton]
      constructor
      · rintro ((hj | hj) | hj)
        · exact Or.inl hj
        · subst hj; exact Or.inr hi
        · exact Or.inr (List.Sublist.mem hj (List.erase_sublist i s.running))
      · rintro (hj | hj)
        · exact Or.inl (Or.inl hj)
        · by_cases hij : j = i
          · exact Or.inl (Or.inr hij)
          · exact Or.inr ((List.mem_erase_of_ne hij).mpr hj)

theorem lookup_eq_body {R : Type} {body : Nat → R} :
    ∀ (l : List (Nat × R)) (i : Nat), (∀ pr ∈ l, pr.2 = body pr.1) →
      i ∈ l.map Prod.fst → l.lookup i = some (body i) := by
  intro l
  induction l with
  | nil => intro i _ hm; simp at hm
  | cons p ps ih =>
    intro i hv hm
    simp only [List.map_cons, List.mem_cons] at hm
    by_cases hip : i = p.1
    · have hb : p.2 = body p.1 := hv p (List.mem_cons_self p ps)
      subst hip
      simp [List.lookup, hb]
    · have hm' : i ∈ ps.map Prod.fst := by
        rcases hm with hm | hm
        · exact absurd hm hip
        · exact hm
      have hrec := ih i (fun pr hpr => hv pr (List.mem_cons_of_mem p hpr)) hm'
      have hbeq : (i == p.1) = false := beq_eq_false_iff_ne.mpr hip
      simp [List.lookup, hbeq, hrec]

/-- Any complete schedule settles slot `i` with `body i`: the `Promise.all`
fan-in of a finished run is exactly the per-task results in task order. -/
theorem execGather_of_terminal {R : Type} {K N : Nat} {body : Nat → R} {d : R}
    {s : ExecState R} (h : ExecReach K N body s) (hdone : ExecDone N s) :
    execGather d N s = (List.range N).map body := by
  rcases hdone with ⟨hstart, hrun⟩
  unfold execGather
  apply List.map_congr_left
  intro i hi
  have hiN : i < N := List.mem_range.mp hi
  have hmem : i ∈ s.results.map Prod.fst := by
    have := (execReach_mem_iff h i).mpr (by omega : i < s.started)
    rcases this with hm | hm
    · exact hm
    · rw [hrun] at hm; simp at hm
  rw [lookup_eq_body s.results i (execReach_results_body h) hmem]
  rfl

theorem range_map_getD {α β : Type} (f : α → β) (d : α) :
    ∀ l : List α, (List.range l.length).map (fun i => f (l.getD i d)) = l.map f := by
  intro l
  induction l with
  | nil => simp
  | cons x xs ih =>
    rw [List.length_cons, List.range_succ_eq_map]
    simp only [List.map_cons, List.map_map, List.getD_cons_zero, List.map_cons]
    refine congrArg (f x :: ·) ?_
    rw [← ih]
    apply List.map_congr_left
    intro i _
    simp [Function.comp, List.getD_cons_succ]

/-- With `K = N` permits, the schedule in which all `N` task bodies run
simultaneously is reachable. -/
theorem execReach_all_running {R : Type} {N : Nat} {body : Nat → R} :
    ∀ n ≤ N, ExecReach N N body
      { started := n, running := (List.range n).reverse, results := [] } := by
  intro n
  induction n with
  | zero => intro _; simpa using ExecReach.init
  | succ m ih =>
    intro hm
    have hr := ih (by omega)
    have hstep : ExecStep N N body
        { started := m, running := (List.range m).reverse, results := [] }
        { started := m + 1, running := m :: (List.range m).reverse, results := [] } :=
      ExecStep.start _ (by simpa using (by omega : m < N))
        (by simpa using (by omega : m < N))
    have hnext := ExecReach.next _ _ hr hstep
    simpa [List.range_succ] using hnext

/-! ## Order-theoretic facts about the comparator models -/

theorem ordListLe_total : ∀ a b : List Nat, ordListLe a b = true ∨ ordListLe b a = true := by
  intro a
  induction a with
  | nil => intro b; left; rfl
  | cons x xs ih =>
    intro b
    cases b with
    | nil => right; rfl
    | cons y ys =>
      by_cases hxy : x < y
      · left; simp [ordListLe, hxy]
      · by_cases hyx : y < x
        · right; simp [ordListLe, hyx, hxy]
        · have hxy' : x = y := by omega
          subst hxy'
          rcases ih ys with h | h
          · left; simp [ordListLe, h]
          · right; simp [ordListLe, h]

theorem ordListLe_antisymm : ∀ a b : List Nat,
    ordListLe a b = true → ordListLe b a = true → a = b := by
  intro a
  induction a with
  | nil =>
    intro b hab hba
    cases b with
    | nil => rfl
    | cons y ys => simp [ordListLe] at hba
  | cons x xs ih =>
    intro b hab hba
    cases b with
    | nil => simp [ordListLe] at hab
    | cons y ys =>
      by_cases hxy : x < y
      · simp [ordListLe, hxy, Nat.not_lt_of_lt hxy] at hba
      · by_cases hyx : y < x
        · simp [ordListLe, hyx, Nat.not_lt_of_lt hyx] at hab
        · have hxy' : x = y := by omega
          subst hxy'
          simp only [ordListLe, lt_self_iff_false, if_false] at hab hba
          rw [ih ys hab hba]

theorem ordListLe_trans : ∀ a b c : List Nat,
    ordListLe a b = true → ordListLe b c = true → ordListLe a c = true := by
  intro a
  induction a with
  | nil => intro b c _ _; rfl
  | cons x xs ih =>
    intro b c hab hbc
    cases b with
    | nil => simp [ordListLe] at hab
    | cons y ys =>
      cases c with
      | nil => simp [ordListLe] at hbc
      | cons z zs =>
        simp only [ordListLe] at hab hbc ⊢
        rcases Nat.lt_trichotomy x y with h1 | h1 | h1
        · rcases Nat.lt_trichotomy y z with h2 | h2 | h2
          · rw [if_pos (by omega : x < z)]
          · rw [if_pos (by omega : x < z)]
          · rw [if_neg (by omega : ¬ y < z), if_pos h2] at hbc
            exact absurd hbc (by simp)
        · subst h1
          rw [if_neg (lt_irrefl x), if_neg (lt_irrefl x)] at hab
          rcases Nat.lt_trichotomy x z with h2 | h2 | h2
          · rw [if_pos h2]
          · subst h2
            rw [if_neg (lt_irrefl x), if_neg (lt_irrefl x)] at hbc ⊢
            exact ih ys zs hab hbc
          · rw [if_neg (by omega : ¬ x < z), if_pos h2] at hbc
            exact absurd hbc (by simp)
        · rw [if_neg (by omega : ¬ x < y), if_pos h1] at hab
          exact absurd hab (by simp)

theorem localeLe_total (a b : String) : localeLe a b = true ∨ localeLe b a = true := by
  unfold localeLe
  by_cases hp : a.data.map primW = b.data.map primW
  · rw [if_pos hp, if_pos hp.symm]
    exact ordListLe_total _ _
  · rw [if_neg hp, if_neg (fun h => hp h.symm)]
    exact ordListLe_total _ _

theorem localeLe_trans (a b c : String) (hab : localeLe a b = true)
    (hbc : localeLe b c = true) : localeLe a c = true := by
  unfold localeLe at hab hbc ⊢
  by_cases hab' : a.data.map primW = b.data.map primW
  · by_cases hbc' : b.data.map primW = c.data.map primW
    · rw [if_pos hab'] at hab
      rw [if_pos hbc'] at hbc
      rw [if_pos (hab'.trans hbc')]
      exact ordListLe_trans _ _ _ hab hbc
    · rw [if_neg hbc'] at hbc
      rw [if_neg (by rw [hab']; exact hbc'), hab']
      exact hbc
  · by_cases hbc' : b.data.map primW = c.data.map primW
    · rw [if_neg hab'] at hab
      rw [if_neg (by rw [← hbc']; exact hab'), ← hbc']
      exact hab
    · rw [if_neg hab'] at hab
      rw [if_neg hbc'] at hbc
      by_cases hac : a.data.map primW = c.data.map primW
      · exfalso
        apply hab'
        apply ordListLe_antisymm _ _ hab
        rw [← hac] at hbc
        exact hbc
      · rw [if_neg hac]
        exact ordListLe_trans _ _ _ hab hbc

instance : IsTotal Extracted aggLe :=
  ⟨fun a b => by unfold aggLe; exact localeLe_total a.rel b.rel⟩

instance : IsTrans Extracted aggLe :=
  ⟨fun a b c hab hbc => by
    unfold aggLe at hab hbc ⊢
    exact localeLe_trans _ _ _ hab hbc⟩

/-- Modelled from the spec: "lexicographic string comparison" — the plain
code-unit (character code) lexicographic order on rendered relative paths,
used to compare the Aggregator's actual order against the spec's words. -/
def specLexLe (a b : String) : Bool :=
  ordListLe (a.data.map Char.toNat) (b.data.map Char.toNat)

/-- The relation on result records induced by the spec's plain lexicographic
comparison of `rel` fields. -/
def specLexRelLe (a b : Extracted) : Prop := specLexLe a.rel b.rel = true

instance : DecidableRel specLexRelLe := fun a b => by
  unfold specLexRelLe; infer_instance

/-- The Aggregator as the spec's words describe it: a stable sort of the
result list by plain lexicographic comparison of relative paths. -/
def specLexSort (l : List Extracted) : List Extracted :=
  List.insertionSort specLexRelLe l

/-! ## Length facts used for the TOC alignment claims -/

theorem length_mk (l : List Char) : (String.mk l).length = l.length := rfl

theorem length_replicate_mk (n : Nat) (c : Char) :
    (String.mk (List.replicate n c)).length = n := by
  rw [length_mk, List.length_replicate]

theorem foldl_max_le_iff {α : Type} (g : α → Nat) :
    ∀ (l : List α) (n m : Nat),
      l.foldl (fun acc x => max acc (g x)) n ≤ m ↔ (n ≤ m ∧ ∀ x ∈ l, g x ≤ m) := by
  intro l
  induction l with
  | nil => simp
  | cons x xs ih =>
    intro n m
    simp only [List.foldl_cons]
    rw [ih, Nat.max_le]
    constructor
    · rintro ⟨⟨h1, h2⟩, h3⟩
      refine ⟨h1, fun y hy => ?_⟩
      rcases List.mem_cons.mp hy with h | h
      · subst h; exact h2
      · exact h3 y h
    · rintro ⟨h1, h2⟩
      exact ⟨⟨h1, h2 x (List.mem_cons_self x xs)⟩,
        fun y hy => h2 y (List.mem_cons_of_mem x hy)⟩

theorem padEnd_length (s : String) (n : Nat) :
    (padEnd s n).length = max s.length n := by
  unfold padEnd
  rw [String.length_append, length_replicate_mk]
  omega

theorem padStart_length (s : String) (n : Nat) :
    (padStart s n).length = max s.length n := by
  unfold padStart
  rw [String.length_append, length_replicate_mk]
  omega

theorem makeDivider_length (w1 w2 w3 : Nat) (l m1 m2 r : String) :
    (makeDivider w1 w2 w3 l m1 m2 r).length =
      l.length + m1.length + m2.length + r.length + w1 + w2 + w3 + 6 := by
  unfold makeDivider
  repeat rw [String.length_append]
  repeat rw [length_replicate_mk]
  omega

/-- Width of every line of the rendered TOC table. -/
def tocTotalWidth (items : List OutItem) (srcDir : AbsPath) : Nat :=
  maxPathLength items srcDir + maxSizeLength items + maxCharsLength items + 10

theorem maxPathLength_bounds (items : List OutItem) (srcDir : AbsPath) :
    tocHeaderPath.length ≤ maxPathLength items srcDir ∧
      ∀ it ∈ items, (relTo srcDir it.path).length ≤ maxPathLength items srcDir := by
  refine (foldl_max_le_iff (fun it => (relTo srcDir it.path).length) items
    tocHeaderPath.length (maxPathLength items srcDir)).mp ?_
  unfold maxPathLength
  exact Nat.le_refl _

theorem maxSizeLength_bounds (items : List OutItem) :
    tocHeaderSize.length ≤ maxSizeLength items ∧
      ∀ it ∈ items, (toString it.size).length ≤ maxSizeLength items := by
  refine (foldl_max_le_iff (fun it => (toString it.size).length) items
    tocHeaderSize.length (maxSizeLength items)).mp ?_
  unfold maxSizeLength
  exact Nat.le_refl _

theorem maxCharsLength_bounds (items : List OutItem) :
    tocHeaderChars.length ≤ maxCharsLength items ∧
      ∀ it ∈ items, (toString it.textLength).length ≤ maxCharsLength items := by
  refine (foldl_max_le_iff (fun it => (toString it.textLength).length) items
    tocHeaderChars.length (maxCharsLength items)).mp ?_
  unfold maxCharsLength
  exact Nat.le_refl _

theorem tocRow_length (srcDir : AbsPath) (w1 w2 w3 : Nat) (it : OutItem)
    (h1 : (relTo srcDir it.path).length ≤ w1)
    (h2 : (toString it.size).length ≤ w2)
    (h3 : (toString it.textLength).length ≤ w3) :
    (tocRow srcDir w1 w2 w3 it).length = w1 + w2 + w3 + 10 := by
  unfold tocRow
  repeat rw [String.length_append]
  rw [padEnd_length, padStart_length, padStart_length,
    Nat.max_eq_right h1, Nat.max_eq_right h2, Nat.max_eq_right h3]
  have e1 : ("║ " : String).length = 2 := rfl
  have e2 : (" " : String).length = 1 := rfl
  have e3 : ("│ " : String).length = 2 := rfl
  have e4 : (" ║" : String).length = 2 := rfl
  rw [e1, e2, e3, e4]
  omega

theorem tocHeaderRow_length (items : List OutItem) (srcDir : AbsPath) :
    (tocHeaderRow items srcDir).length = tocTotalWidth items srcDir := by
  unfold tocHeaderRow tocTotalWidth
  repeat rw [String.length_append]
  rw [padEnd_length, padStart_length, padStart_length,
    Nat.max_eq_right (maxPathLength_bounds items srcDir).1,
    Nat.max_eq_right (maxSizeLength_bounds items).1,
    Nat.max_eq_right (maxCharsLength_bounds items).1]
  have e1 : ("║ " : String).length = 2 := rfl
  have e2 : (" " : String).length = 1 := rfl
  have e3 : ("│ " : String).length = 2 := rfl
  have e4 : (" ║" : String).length = 2 := rfl
  rw [e1, e2, e3, e4]
  omega

/-- C8: with zero successful entries, `makeTocSection` renders the single
literal "no files were processed" sentinel line (`"No files were processed."`)
instead of a zero-row table; for any non-empty input, each column's width is
the maximum of its header-label width and all value widths in that column
(stated as the Galois characterization of that maximum), every rendered line
of the table has the same total width, and the table has exactly one body row
per entry. -/
theorem toc_sentinel_and_column_widths :
    (∀ srcDir : AbsPath, makeTocSection [] srcDir = "No files were processed.")
    ∧ (∀ (items : List OutItem) (srcDir : AbsPath), items ≠ [] →
        ((∀ m : Nat, maxPathLength items srcDir ≤ m ↔
            (tocHeaderPath.length ≤ m ∧ ∀ it ∈ items, (relTo srcDir it.path).length ≤ m))
         ∧ (∀ m : Nat, maxSizeLength items ≤ m ↔
            (tocHeaderSize.length ≤ m ∧ ∀ it ∈ items, (toString it.size).length ≤ m))
         ∧ (∀ m : Nat, maxCharsLength items ≤ m ↔
            (tocHeaderChars.length ≤ m ∧ ∀ it ∈ items, (toString it.textLength).length ≤ m)))
        ∧ ((tocHeaderTop items srcDir).length = tocTotalWidth items srcDir
           ∧ (tocHeaderRow items srcDir).length = tocTotalWidth items srcDir
           ∧ (tocHeaderMid items srcDir).length = tocTotalWidth items srcDir
           ∧ (∀ it ∈ items,
               (tocRow srcDir (maxPathLength items srcDir) (maxSizeLength items)
                 (maxCharsLength items) it).length = tocTotalWidth items srcDir)
           ∧ (tocFooterBot items srcDir).length = tocTotalWidth items srcDir)
        ∧ (items.map (tocRow srcDir (maxPathLength items srcDir) (maxSizeLength items)
             (maxCharsLength items))).length = items.length) := by
  constructor
  · intro srcDir
    simp [makeTocSection]
  · intro items srcDir _
    have d1 : ("╔" : String).length = 1 := rfl
    have d2 : ("╤" : String).length = 1 := rfl
    have d3 : ("╗" : String).length = 1 := rfl
    have d4 : ("╟" : String).length = 1 := rfl
    have d5 : ("┼" : String).length = 1 := rfl
    have d6 : ("╢" : String).length = 1 := rfl
    have d7 : ("╚" : String).length = 1 := rfl
    have d8 : ("╧" : String).length = 1 := rfl
    have d9 : ("╝" : String).length = 1 := rfl
    refine ⟨⟨?_, ?_, ?_⟩, ⟨?_, ?_, ?_, ?_, ?_⟩, ?_⟩
    · intro m
      have h := foldl_max_le_iff (fun it => (relTo srcDir it.path).length) items
        tocHeaderPath.length m
      unfold maxPathLength
      exact h
    · intro m
      have h := foldl_max_le_iff (fun it => (toString it.size).length) items
        tocHeaderSize.length m
      unfold maxSizeLength
      exact h
    · intro m
      have h := foldl_max_le_iff (fun it => (toString it.textLength).length) items
        tocHeaderChars.length m
      unfold maxCharsLength
      exact h
    · unfold tocHeaderTop tocTotalWidth
      rw [makeDivider_length, d1, d2, d3]
      omega
    · exact tocHeaderRow_length items srcDir
    · unfold tocHeaderMid tocTotalWidth
      rw [makeDivider_length, d4, d5, d6]
      omega
    · intro it hit
      unfold tocTotalWidth
      exact tocRow_length srcDir _ _ _ it
        ((maxPathLength_bounds items srcDir).2 it hit)
        ((maxSizeLength_bounds items).2 it hit)
        ((maxCharsLength_bounds items).2 it hit)
    · unfold tocFooterBot tocTotalWidth
      rw [makeDivider_length, d7, d8, d9]
      omega
    · exact items.length_map _

/-- Witness for `toc_sentinel_and_column_widths` at a concrete one-item input. -/
theorem toc_sentinel_and_column_widths_witness :
    makeTocSection [] ["s"] = "No files were processed." ∧
    (tocHeaderRow [⟨["s", "a.html"], "hi", 3, 2⟩] ["s"]).length =
      tocTotalWidth [⟨["s", "a.html"], "hi", 3, 2⟩] ["s"] :=
  ⟨toc_sentinel_and_column_widths.1 ["s"],
   ((toc_sentinel_and_column_widths.2 [⟨["s", "a.html"], "hi", 3, 2⟩] ["s"]
      (by decide)).2.1).2.1⟩

/-! ## Extractor heuristic facts (C6, C7) -/

theorem firstQualifying_eq_find (q : String → String) :
    ∀ sels : List String,
      firstQualifying q sels = (sels.find? (fun sel => qualifies (q sel))).map q := by
  intro sels
  induction sels with
  | nil => rfl
  | cons sel rest ih =>
    simp only [firstQualifying, List.find?]
    by_cases h : qualifies (q sel)
    · simp [h]
    · simp only [h, Bool.false_eq_true, if_false, cond_false]
      exact ih

theorem collapseChars_ws_space :
    ∀ l : List Char, ∀ c ∈ collapseChars l, jsWs c = true → c = ' ' := by
  intro l
  induction l with
  | nil => intro c hc; simp [collapseChars] at hc
  | cons x xs ih =>
    intro c hc hws
    cases xs with
    | nil =>
      simp only [collapseChars, List.mem_singleton] at hc
      subst hc
      by_cases hx : jsWs x
      · simp [hx]
      · simp only [hx, if_false] at hws ⊢
        exact absurd hws (by simp [hx])
    | cons d ds =>
      simp only [collapseChars] at hc
      split at hc
      · exact ih c hc hws
      · rcases List.mem_cons.mp hc with hc | hc
        · subst hc
          by_cases hx : jsWs x
          · simp [hx]
          · rw [if_neg hx] at hws ⊢
            exact absurd hws (by simp [hx])
        · exact ih c hc hws

theorem collapseChars_head :
    ∀ (xs : List Char) (d : Char),
      (collapseChars (d :: xs)).head? = some (if jsWs d then ' ' else d) := by
  intro xs
  induction xs with
  | nil => intro d; simp [collapseChars]
  | cons e es ih =>
    intro d
    simp only [collapseChars]
    by_cases hde : jsWs d && jsWs e
    · rw [if_pos hde, ih e]
      have hd : jsWs d = true := by
        rcases Bool.and_eq_true_iff.mp hde with ⟨h1, _⟩; exact h1
      have he : jsWs e = true := by
        rcases Bool.and_eq_true_iff.mp hde with ⟨_, h2⟩; exact h2
      rw [hd, he]
      simp
    · rw [if_neg hde]
      simp

theorem collapseChars_chain :
    ∀ l : List Char,
      List.Chain' (fun a b => ¬(jsWs a = true ∧ jsWs b = true)) (collapseChars l) := by
  intro l
  induction l with
  | nil => simp [collapseChars]
  | cons x xs ih =>
    cases xs with
    | nil => simp [collapseChars]
    | cons d ds =>
      simp only [collapseChars]
      split
      · exact ih
      · rename_i hnd
        rw [List.chain'_cons']
        refine ⟨?_, ih⟩
        intro y hy
        rw [collapseChars_head ds d] at hy
        intro ⟨hx, hyws⟩
        cases hy
        by_cases hd : jsWs d
        · rw [if_pos hd] at hyws
          have hxw : jsWs x = true := by
            by_cases hxx : jsWs x
            · exact hxx
            · rw [if_neg hxx] at hx; exact absurd hx (by simp [hxx])
          exact hnd (by rw [hxw, hd]; rfl)
        · rw [if_neg hd] at hyws
          exact hd hyws

theorem collapseChars_filter :
    ∀ l : List Char,
      (collapseChars l).filter (fun c => !jsWs c) = l.filter (fun c => !jsWs c) := by
  intro l
  induction l with
  | nil => rfl
  | cons x xs ih =>
    cases xs with
    | nil =>
      simp only [collapseChars]
      by_cases hx : jsWs x
      · rw [if_pos hx, List.filter_cons, List.filter_cons]
        have h1 : (!jsWs ' ') = false := rfl
        have h2 : (!jsWs x) = false := by rw [hx]; rfl
        rw [h1, h2]
        simp
      · have hxf : jsWs x = false := by revert hx; cases jsWs x <;> simp
        rw [if_neg hx]
    | cons d ds =>
      simp only [collapseChars]
      split
      · rename_i hnd
        rcases Bool.and_eq_true_iff.mp hnd with ⟨h1, _⟩
        rw [ih]
        conv_rhs => rw [List.filter_cons]
        have h2 : (!jsWs x) = false := by rw [h1]; rfl
        rw [h2]
        simp
      · rw [List.filter_cons, List.filter_cons, ih]
        by_cases hx : jsWs x
        · rw [if_pos hx]
          have h1 : (!jsWs ' ') = false := rfl
          have h2 : (!jsWs x) = false := by rw [hx]; rfl
          rw [h1, h2]
          simp
        · rw [if_neg hx]

theorem findClose_through {cl : Char} :
    ∀ (b tail : List Char), (∀ x ∈ b, x ≠ cl ∧ x ≠ '\n' ∧ x ≠ '\r') →
      findClose cl (b ++ cl :: tail) = some tail := by
  intro b
  induction b with
  | nil => intro tail _; simp [findClose]
  | cons x xs ih =>
    intro tail hb
    have hx := hb x (List.mem_cons_self x xs)
    simp only [List.cons_append, findClose]
    rw [if_neg hx.1, if_neg (by push_neg; exact ⟨hx.2.1, hx.2.2⟩)]
    exact ih tail (fun y hy => hb y (List.mem_cons_of_mem x hy))

theorem stripDelims_removes {o cl : Char} :
    ∀ (a b tail : List Char), (∀ x ∈ a, x ≠ o) →
      (∀ x ∈ b, x ≠ cl ∧ x ≠ '\n' ∧ x ≠ '\r') →
      stripDelims o cl (a ++ o :: (b ++ cl :: tail)) = a ++ stripDelims o cl tail := by
  intro a
  induction a with
  | nil =>
    intro b tail _ hb
    simp only [List.nil_append]
    rw [stripDelims]
    rw [if_pos rfl]
    rw [findClose_through b tail hb]
  | cons x xs ih =>
    intro b tail ha hb
    have hx := ha x (List.mem_cons_self x xs)
    simp only [List.cons_append]
    rw [stripDelims]
    rw [if_neg hx]
    rw [ih b tail (fun y hy => ha y (List.mem_cons_of_mem x hy)) hb]

theorem head_dropWhile_not_ws :
    ∀ (l : List Char) (c : Char), (l.dropWhile jsWs).head? = some c → jsWs c = false := by
  intro l
  induction l with
  | nil => intro c h; simp [List.dropWhile] at h
  | cons x xs ih =>
    intro c h
    by_cases hx : jsWs x
    · rw [List.dropWhile_cons_of_pos hx] at h
      exact ih c h
    · have hxf : jsWs x = false := by revert hx; cases jsWs x <;> simp
      rw [List.dropWhile_cons_of_neg (by simp [hxf])] at h
      simp only [List.head?_cons, Option.some.injEq] at h
      subst h
      exact hxf

theorem trimChars_head_not_ws (l : List Char) (c : Char)
    (h : (trimChars l).head? = some c) : jsWs c = false := by
  unfold trimChars at h
  rw [List.head?_reverse] at h
  set z := (l.dropWhile jsWs).reverse with hz
  have hne : z.dropWhile jsWs ≠ [] := by
    intro hnil
    rw [hnil] at h
    simp at h
  rcases (List.dropWhile_suffix jsWs : z.dropWhile jsWs <:+ z) with ⟨t, ht⟩
  have hlast : (z.dropWhile jsWs).getLast? = z.getLast? := by
    conv_rhs => rw [← ht]
    exact (List.getLast?_append_of_ne_nil t hne).symm
  rw [hlast, hz, List.getLast?_reverse] at h
  exact head_dropWhile_not_ws l c h

theorem trimChars_getLast_not_ws (l : List Char) (c : Char)
    (h : (trimChars l).getLast? = some c) : jsWs c = false := by
  unfold trimChars at h
  rw [List.getLast?_reverse] at h
  exact head_dropWhile_not_ws _ c h

/-- C6: for every (non-empty) markup input, the content selection of
lines 231-240 tries the fixed priority list `selectors` in order (semantic
`main`/`article` regions, then the content-wrapper class selectors, then
`body`) and uses the text of the first selector whose trimmed length exceeds
50 characters; when none qualifies it falls back to the full body text
(`$('body').text()`), which is the empty string when the body is absent. -/
theorem extractor_selector_priority (q : String → String) :
    (pickContent q = match selectors.find? (fun sel => qualifies (q sel)) with
      | some sel => q sel
      | none => q "body")
    ∧ (∀ t : String, qualifies t = true ↔ (t ≠ "" ∧ 50 < (jsTrimStr t).length))
    ∧ ((∀ sel ∈ selectors, qualifies (q sel) = false) → pickContent q = q "body")
    ∧ (q "body" = "" → (∀ sel ∈ selectors, qualifies (q sel) = false) →
        pickContent q = "") := by
  have hfind : pickContent q = match selectors.find? (fun sel => qualifies (q sel)) with
      | some sel => q sel
      | none => q "body" := by
    unfold pickContent
    rw [firstQualifying_eq_find]
    cases selectors.find? (fun sel => qualifies (q sel)) <;> simp
  have hnone : (∀ sel ∈ selectors, qualifies (q sel) = false) → pickContent q = q "body" := by
    intro hall
    rw [hfind, List.find?_eq_none.mpr (by intro sel hsel; simp [hall sel hsel])]
  refine ⟨hfind, ?_, hnone, ?_⟩
  · intro t
    unfold qualifies
    rw [Bool.and_eq_true_iff]
    constructor
    · rintro ⟨h1, h2⟩
      exact ⟨by simpa using h1, by simpa using h2⟩
    · rintro ⟨h1, h2⟩
      exact ⟨by simpa using h1, by simpa using h2⟩
  · intro hbody hall
    rw [hnone hall, hbody]

/-- Witness for `extractor_selector_priority`: when no selector's text
qualifies, the extractor falls back to the body text. -/
theorem extractor_selector_priority_witness :
    pickContent (fun _ => "tiny") = "tiny" :=
  (extractor_selector_priority (fun _ => "tiny")).2.2.1 (by decide)

/-- C7: the normalization of line 243 of `src/index.js` is the composition
of (1) collapsing every whitespace run to a single space, (2) stripping
`[...]` fragments, (3) stripping braced fragments, (4) trimming — and the
extractor returns empty text with no failure for an empty or whitespace-only
file.  The conjuncts characterize each stage: the collapse stage leaves only
single spaces as whitespace with no two adjacent whitespace characters and
preserves all non-whitespace characters; the strip stages delete each
delimiter-bounded fragment; the trim stage leaves no leading or trailing
whitespace. -/
theorem extractor_normalization_pipeline :
    (∀ (q : String → String → String) (fs : FS) (f : AbsPath) (html : String),
        fs.read f = .ok html → jsTrimStr html = "" →
        extractTextFromHTML q fs f = { filePath := f, text := "", error? := none })
    ∧ (∀ t : String, normalizeText t =
        String.mk (trimChars (stripDelims '\x7b' '\x7d'
          (stripDelims '[' ']' (collapseChars t.data)))))
    ∧ (∀ l : List Char,
        (∀ c ∈ collapseChars l, jsWs c = true → c = ' ')
        ∧ List.Chain' (fun a b => ¬(jsWs a = true ∧ jsWs b = true)) (collapseChars l)
        ∧ (collapseChars l).filter (fun c => !jsWs c) = l.filter (fun c => !jsWs c))
    ∧ (∀ a b tail : List Char, (∀ x ∈ a, x ≠ '[') →
        (∀ x ∈ b, x ≠ ']' ∧ x ≠ '\n' ∧ x ≠ '\r') →
        stripDelims '[' ']' (a ++ '[' :: (b ++ ']' :: tail)) =
          a ++ stripDelims '[' ']' tail)
    ∧ (∀ a b tail : List Char, (∀ x ∈ a, x ≠ '\x7b') →
        (∀ x ∈ b, x ≠ '\x7d' ∧ x ≠ '\n' ∧ x ≠ '\r') →
        stripDelims '\x7b' '\x7d' (a ++ '\x7b' :: (b ++ '\x7d' :: tail)) =
          a ++ stripDelims '\x7b' '\x7d' tail)
    ∧ (∀ (l : List Char) (c : Char),
        ((trimChars l).head? = some c → jsWs c = false)
        ∧ ((trimChars l).getLast? = some c → jsWs c = false)) := by
  refine ⟨?_, ?_, ?_, ?_, ?_, ?_⟩
  · intro q fs f html hread htrim
    unfold extractTextFromHTML
    rw [hread]
    simp [htrim]
  · intro t; rfl
  · intro l
    exact ⟨collapseChars_ws_space l, collapseChars_chain l, collapseChars_filter l⟩
  · intro a b tail ha hb
    exact stripDelims_removes a b tail ha hb
  · intro a b tail ha hb
    exact stripDelims_removes a b tail ha hb
  · intro l c
    exact ⟨trimChars_head_not_ws l c, trimChars_getLast_not_ws l c⟩

/-- Witness for `extractor_normalization_pipeline` at concrete inputs: a
whitespace-only file yields an empty, failure-free result, and a concrete
bracketed fragment is stripped. -/
theorem extractor_normalization_pipeline_witness :
    extractTextFromHTML (fun _ _ => "") ⟨fun _ => .ok " \t ", fun _ => some 1⟩ ["a"] =
      { filePath := ["a"], text := "", error? := none } ∧
    stripDelims '[' ']' (['a'] ++ '[' :: (['1'] ++ ']' :: ['b'])) =
      ['a'] ++ stripDelims '[' ']' ['b'] := by
  constructor
  · exact extractor_normalization_pipeline.1 (fun _ _ => "")
      ⟨fun _ => .ok " \t ", fun _ => some 1⟩ ["a"] " \t " rfl rfl
  · exact extractor_normalization_pipeline.2.2.2.1 ['a'] ['1'] ['b']
      (by decide) (by decide)

/-! ## Failure handling (C2, C3) -/

/-- A result record carries no error exactly when the file's read succeeded
(lines 249-256: only a read failure sets `error`). -/
theorem taskBody_error_iff (q : String → String → String) (hash : String → String)
    (fs : FS) (cwd : AbsPath) (g : AbsPath) :
    (taskBody q hash fs cwd g).error?.isNone = readOk fs g := by
  unfold taskBody extractTextFromHTML readOk
  cases fs.read g with
  | error e => simp
  | ok html => by_cases h : jsTrimStr html = "" <;> simp [h]

theorem taskBody_path (q : String → String → String) (hash : String → String)
    (fs : FS) (cwd : AbsPath) (g : AbsPath) :
    (taskBody q hash fs cwd g).path = g := rfl

/-- C2 (amended): for a file whose read fails with error `e`, the result
record has `failureReason = e`, empty extracted text, text length 0, the hash
of the empty text — and `sizeInBytes` equal to the separately stat'ed size
(defaulting to 0 only when the stat also fails), since lines 387-389 stat the
file regardless of the read failure. -/
theorem read_failure_result (q : String → String → String) (hash : String → String)
    (fs : FS) (cwd : AbsPath) (f : AbsPath) (e : String)
    (h : fs.read f = .error e) :
    taskBody q hash fs cwd f =
      { path := f, rel := relTo cwd f, size := (fs.statSize f).getD 0,
        textLength := 0, text := "", hash := hash "", error? := some e } := by
  unfold taskBody extractTextFromHTML
  rw [h]
  exact rfl

/-- A file system in which every read is denied but the stat succeeds with
size 5 (a regular unreadable file). -/
def fsReadDenied : FS :=
  { read := fun _ => .error "EACCES: permission denied",
    statSize := fun _ => some 5 }

/-- C2 counterexample: a read failure on an existing-but-unreadable file
yields `failureReason` set and empty text as claimed, but `sizeInBytes` is
the stat'ed size 5, not 0. -/
theorem read_failure_size_cex :
    fsReadDenied.read ["r", "x.html"] = .error "EACCES: permission denied"
    ∧ (taskBody (fun _ _ => "") (fun s => s) fsReadDenied ["r"] ["r", "x.html"]).error?
        = some "EACCES: permission denied"
    ∧ (taskBody (fun _ _ => "") (fun s => s) fsReadDenied ["r"] ["r", "x.html"]).text = ""
    ∧ (taskBody (fun _ _ => "") (fun s => s) fsReadDenied ["r"] ["r", "x.html"]).size = 5
    ∧ ¬ (taskBody (fun _ _ => "") (fun s => s) fsReadDenied ["r"] ["r", "x.html"]).size = 0 := by
  refine ⟨rfl, rfl, rfl, rfl, ?_⟩
  decide

/-- Witness for `read_failure_result` at the concrete denied-read input. -/
theorem read_failure_result_witness :
    taskBody (fun _ _ => "") (fun s => s) fsReadDenied ["r"] ["r", "x.html"] =
      { path := ["r", "x.html"], rel := relTo ["r"] ["r", "x.html"], size := 5,
        textLength := 0, text := "", hash := "",
        error? := some "EACCES: permission denied" } := by
  have h := read_failure_result (fun _ _ => "") (fun s => s) fsReadDenied ["r"]
    ["r", "x.html"] "EACCES: permission denied" rfl
  exact h

theorem countP_congr_list {α : Type} {p q : α → Bool} :
    ∀ l : List α, (∀ a ∈ l, p a = q a) → l.countP p = l.countP q := by
  intro l
  induction l with
  | nil => intro _; rfl
  | cons x xs ih =>
    intro h
    rw [List.countP_cons, List.countP_cons, h x (List.mem_cons_self x xs),
      ih (fun a ha => h a (List.mem_cons_of_mem x ha))]

/-- C3: a read failure on one file `f` among the discovered files is
captured as data: the executor still yields one result per file, the failing
file's result carries its error inside the data (no exception crosses the
executor boundary), every other (successfully read) file still appears in the
corpus item list, the failed file is excluded from the corpus/TOC item list,
and exactly the other `N - 1` files are output. -/
theorem failure_isolation (q : String → String → String) (hash : String → String)
    (fs : FS) (cwd : AbsPath) (files : List AbsPath) (f : AbsPath)
    (hnodup : files.Nodup) (hf : f ∈ files) (hfail : readOk fs f = false)
    (hothers : ∀ g ∈ files, g ≠ f → readOk fs g = true) :
    (executorResults q hash fs cwd files).length = files.length
    ∧ (∃ r ∈ executorResults q hash fs cwd files, r.path = f ∧ r.error?.isSome = true)
    ∧ (∀ g ∈ files, g ≠ f →
        ∃ it ∈ itemsForOutput (executorResults q hash fs cwd files), it.path = g)
    ∧ (∀ it ∈ itemsForOutput (executorResults q hash fs cwd files), it.path ≠ f)
    ∧ (itemsForOutput (executorResults q hash fs cwd files)).length = files.length - 1 := by
  have hperm : (sortedExtractions (executorResults q hash fs cwd files)).Perm
      (executorResults q hash fs cwd files) :=
    List.perm_insertionSort aggLe _
  refine ⟨List.length_map files _, ?_, ?_, ?_, ?_⟩
  · refine ⟨taskBody q hash fs cwd f, List.mem_map_of_mem _ hf, rfl, ?_⟩
    have h := taskBody_error_iff q hash fs cwd f
    rw [hfail] at h
    cases ho : (taskBody q hash fs cwd f).error? with
    | none => rw [ho] at h; simp at h
    | some e => rfl
  · intro g hg hne
    refine ⟨{ path := (taskBody q hash fs cwd g).path,
              text := (taskBody q hash fs cwd g).text,
              size := (taskBody q hash fs cwd g).size,
              textLength := (taskBody q hash fs cwd g).textLength }, ?_, rfl⟩
    apply List.mem_map_of_mem
    apply List.mem_filter.mpr
    constructor
    · exact hperm.mem_iff.mpr (List.mem_map_of_mem _ hg)
    · rw [taskBody_error_iff q hash fs cwd g]
      exact hothers g hg hne
  · intro it hit
    rcases List.mem_map.mp hit with ⟨e, he, hemap⟩
    rcases List.mem_filter.mp he with ⟨hes, hnone⟩
    rcases List.mem_map.mp (hperm.mem_iff.mp hes) with ⟨g, hg, hge⟩
    intro hpf
    have hpg : it.path = g := by rw [← hemap, ← hge]; rfl
    have hgf : g = f := by rw [← hpg, hpf]
    subst hgf
    rw [← hge, taskBody_error_iff q hash fs cwd g, hfail] at hnone
    exact Bool.false_ne_true hnone
  · unfold itemsForOutput successfulExtractions
    rw [List.length_map, ← List.countP_eq_length_filter, hperm.countP_eq]
    unfold executorResults
    rw [List.countP_map]
    have hcong : files.countP ((fun e : Extracted => e.error?.isNone) ∘ taskBody q hash fs cwd)
        = files.countP (fun g => readOk fs g) := by
      apply countP_congr_list
      intro g hg
      simp only [Function.comp]
      exact taskBody_error_iff q hash fs cwd g
    rw [hcong]
    have hsum := List.length_eq_countP_add_countP (fun g => readOk fs g) files
    have hneg : files.countP (fun g => ¬ readOk fs g = true) = 1 := by
      have hc : files.countP (fun g => ¬ readOk fs g = true)
          = files.countP (fun x => decide (x = f)) := by
        apply countP_congr_list
        intro g hg
        by_cases hgf : g = f
        · subst hgf
          simp [hfail]
        · simp [hothers g hg hgf, hgf]
      have hcc : files.countP (fun x => decide (x = f))
          = @List.count AbsPath instBEqOfDecidableEq f files := rfl
      rw [hc, hcc]
      exact List.count_eq_one_of_mem hnodup hf
    omega

/-- A file system in which exactly `r/bad.html` fails to read and every other
file reads successfully (as empty content). -/
def fsOneBad : FS :=
  { read := fun p => if p = ["r", "bad.html"] then .error "EIO: read failed" else .ok "",
    statSize := fun _ => some 4 }

/-- Witness for `failure_isolation` on a concrete two-file batch. -/
theorem failure_isolation_witness :
    (executorResults (fun _ _ => "") (fun s => s) fsOneBad ["r"]
        [["r", "a.html"], ["r", "bad.html"]]).length = 2
    ∧ (∀ it ∈ itemsForOutput (executorResults (fun _ _ => "") (fun s => s) fsOneBad ["r"]
        [["r", "a.html"], ["r", "bad.html"]]), it.path ≠ ["r", "bad.html"])
    ∧ (itemsForOutput (executorResults (fun _ _ => "") (fun s => s) fsOneBad ["r"]
        [["r", "a.html"], ["r", "bad.html"]])).length = 1 := by
  have h := failure_isolation (fun _ _ => "") (fun s => s) fsOneBad ["r"]
    [["r", "a.html"], ["r", "bad.html"]] ["r", "bad.html"]
    (by decide) (by decide) (by decide) (by decide)
  exact ⟨h.1, h.2.2.2.1, h.2.2.2.2⟩

/-! ## Executor completeness vs. the index contents (C1) -/

/-- C1 (amended): the Executor reports exactly one result per discovered
file (none dropped), but the index artifact keeps only the successful
records: it has `N - F` records where `F` is the number of failed files, and
every record it contains has a null failure reason — failed files are
filtered out of `pages.json` (lines 409 and 418 both derive from the
error-filtered slice). -/
theorem executor_complete_index_successes_only (q : String → String → String)
    (hash : String → String) (fs : FS) (cwd : AbsPath) (files : List AbsPath) :
    (executorResults q hash fs cwd files).length = files.length
    ∧ (pagesJson (executorResults q hash fs cwd files)).length
        = files.length
          - (executorResults q hash fs cwd files).countP (fun e => e.error?.isSome)
    ∧ (∀ p ∈ pagesJson (executorResults q hash fs cwd files), p.error? = none) := by
  have hperm : (sortedExtractions (executorResults q hash fs cwd files)).Perm
      (executorResults q hash fs cwd files) :=
    List.perm_insertionSort aggLe _
  refine ⟨List.length_map files _, ?_, ?_⟩
  · unfold pagesJson successfulExtractions
    rw [List.length_map, ← List.countP_eq_length_filter, hperm.countP_eq]
    have hcong : (executorResults q hash fs cwd files).countP (fun e => e.error?.isNone)
        = (executorResults q hash fs cwd files).countP
            (fun e => ¬ (e.error?.isSome) = true) := by
      apply countP_congr_list
      intro e _
      cases e.error? <;> simp
    rw [hcong]
    have hsum := List.length_eq_countP_add_countP
      (fun e : Extracted => e.error?.isSome) (executorResults q hash fs cwd files)
    have hlen : (executorResults q hash fs cwd files).length = files.length :=
      List.length_map files _
    omega
  · intro p hp
    rcases List.mem_map.mp hp with ⟨e, he, hemap⟩
    rcases List.mem_filter.mp he with ⟨_, hnone⟩
    rw [← hemap]
    simpa using hnone

/-- C1 counterexample: two discovered files, one read failure — the
Executor reports 2 results but `pages.json` has 1 record, not 2; the failed
file is not recorded in the index at all. -/
theorem index_drops_failures_cex :
    (executorResults (fun _ _ => "") (fun s => s) fsOneBad ["r"]
        [["r", "a.html"], ["r", "bad.html"]]).length = 2
    ∧ (pagesJson (executorResults (fun _ _ => "") (fun s => s) fsOneBad ["r"]
        [["r", "a.html"], ["r", "bad.html"]])).length = 1
    ∧ ¬ ((pagesJson (executorResults (fun _ _ => "") (fun s => s) fsOneBad ["r"]
        [["r", "a.html"], ["r", "bad.html"]])).length = 2)
    ∧ (∀ p ∈ pagesJson (executorResults (fun _ _ => "") (fun s => s) fsOneBad ["r"]
        [["r", "a.html"], ["r", "bad.html"]]), ¬ p.path = "bad.html") := by
  decide

/-- Witness for `executor_complete_index_successes_only` at the concrete
two-file batch with one failure. -/
theorem executor_complete_index_witness :
    (executorResults (fun _ _ => "") (fun s => s) fsOneBad ["r"]
        [["r", "a.html"], ["r", "bad.html"]]).length = 2
    ∧ (pagesJson (executorResults (fun _ _ => "") (fun s => s) fsOneBad ["r"]
        [["r", "a.html"], ["r", "bad.html"]])).length
        = 2 - (executorResults (fun _ _ => "") (fun s => s) fsOneBad ["r"]
            [["r", "a.html"], ["r", "bad.html"]]).countP (fun e => e.error?.isSome) :=
  ⟨(executor_complete_index_successes_only (fun _ _ => "") (fun s => s) fsOneBad ["r"]
      [["r", "a.html"], ["r", "bad.html"]]).1,
   (executor_complete_index_successes_only (fun _ _ => "") (fun s => s) fsOneBad ["r"]
      [["r", "a.html"], ["r", "bad.html"]]).2.1⟩

/-! ## Aggregator ordering (C5) -/

/-- C5 (amended): the Aggregator sorts the Executor's result list by each
result's path rendered relative to the working directory using the
locale-aware collation of `localeCompare` (under which, e.g., `a.html` orders
before `B.html`), not plain code-unit lexicographic comparison; beyond this
sort and the successful/all partition it applies no transformation: the
sorted list is a permutation of the input and the successful slice is exactly
its error-free sublist. -/
theorem aggregator_sort_and_partition (l : List Extracted) :
    (sortedExtractions l).Perm l
    ∧ List.Sorted aggLe (sortedExtractions l)
    ∧ successfulExtractions l = (sortedExtractions l).filter (fun e => e.error?.isNone)
    ∧ ∀ e ∈ successfulExtractions l, e ∈ l := by
  refine ⟨List.perm_insertionSort aggLe l, List.sorted_insertionSort aggLe l, rfl, ?_⟩
  intro e he
  exact (List.perm_insertionSort aggLe l).mem_iff.mp (List.mem_filter.mp he).1

/-- A file system in which every read succeeds with empty content. -/
def fsEmptyOk : FS :=
  { read := fun _ => .ok "", statSize := fun _ => some 1 }

/-- C5 counterexample: on the two files `B.html` and `a.html`, the code's
`localeCompare` collation orders `a.html` before `B.html`, while the
lexicographic (code-unit) comparison the claim states orders `B.html` first —
so the Aggregator's output is not the lexicographic sort. -/
theorem aggregator_not_lexicographic_cex :
    ((sortedExtractions (executorResults (fun _ _ => "") (fun s => s) fsEmptyOk
        ["h"] [["h", "B.html"], ["h", "a.html"]])).map (fun e => e.rel)
      = ["a.html", "B.html"])
    ∧ ((specLexSort (executorResults (fun _ _ => "") (fun s => s) fsEmptyOk
        ["h"] [["h", "B.html"], ["h", "a.html"]])).map (fun e => e.rel)
      = ["B.html", "a.html"])
    ∧ sortedExtractions (executorResults (fun _ _ => "") (fun s => s) fsEmptyOk
        ["h"] [["h", "B.html"], ["h", "a.html"]])
      ≠ specLexSort (executorResults (fun _ _ => "") (fun s => s) fsEmptyOk
        ["h"] [["h", "B.html"], ["h", "a.html"]]) := by
  decide

/-- C4: under the bounded-parallelism primitive with caller-supplied
ceiling `K ≥ 1`, every reachable scheduler state of a run over the discovered
files has at most `K` task bodies executing; with `K = 1` no two extractions
overlap in time (any two concurrently running tasks coincide), and with
`K = N` a state in which all `N` bodies run simultaneously is reachable. -/
theorem concurrency_ceiling_respected (K : Nat) (q : String → String → String)
    (hash : String → String) (fs : FS) (cwd : AbsPath) (files : List AbsPath)
    (hK : 1 ≤ K) :
    (∀ s : ExecState Extracted,
        ExecReach K files.length (execBody q hash fs cwd files) s →
        s.running.length ≤ K)
    ∧ (K = 1 → ∀ s : ExecState Extracted,
        ExecReach K files.length (execBody q hash fs cwd files) s →
        ∀ i ∈ s.running, ∀ j ∈ s.running, i = j)
    ∧ (K = files.length →
        ∃ s : ExecState Extracted,
          ExecReach K files.length (execBody q hash fs cwd files) s ∧
          s.running.length = files.length) := by
  refine ⟨fun s hs => execReach_ceiling hs, ?_, ?_⟩
  · intro hK1 s hs i hi j hj
    have h := execReach_ceiling hs
    rw [hK1] at h
    cases hr : s.running with
    | nil => rw [hr] at hi; simp at hi
    | cons x xs =>
      rw [hr] at h hi hj
      have hxs : xs = [] := by
        simp only [List.length_cons] at h
        exact List.eq_nil_of_length_eq_zero (by omega)
      subst hxs
      simp only [List.mem_singleton] at hi hj
      rw [hi, hj]
  · intro hKN
    subst hKN
    refine ⟨_, execReach_all_running files.length (le_refl _), ?_⟩
    simp

/-- Witness for `concurrency_ceiling_respected` with `K = 2` over two files
(`K = N`, so the all-overlapping schedule is also exhibited). -/
theorem concurrency_ceiling_witness :
    (1 ≤ 2)
    ∧ (∀ s : ExecState Extracted,
        ExecReach 2 ([["r", "a.html"], ["r", "b.html"]] : List AbsPath).length
          (execBody (fun _ _ => "") (fun s => s) fsEmptyOk ["r"]
            [["r", "a.html"], ["r", "b.html"]]) s →
        s.running.length ≤ 2)
    ∧ (∃ s : ExecState Extracted,
        ExecReach 2 ([["r", "a.html"], ["r", "b.html"]] : List AbsPath).length
          (execBody (fun _ _ => "") (fun s => s) fsEmptyOk ["r"]
            [["r", "a.html"], ["r", "b.html"]]) s ∧
        s.running.length = ([["r", "a.html"], ["r", "b.html"]] : List AbsPath).length) := by
  have h := concurrency_ceiling_respected 2 (fun _ _ => "") (fun s => s) fsEmptyOk ["r"]
    [["r", "a.html"], ["r", "b.html"]] (by decide)
  exact ⟨by decide, h.1, h.2.2 rfl⟩

/-- C9: for a fixed file set, file system and ceiling, any two complete
schedules of the bounded executor — whatever order the workers finish in —
gather the same per-task results, so the corpus artifact and the index
artifact (with the generation timestamp supplied equally, i.e. ignored) are
byte-identical; moreover the gathered list is exactly the in-order
`Promise.all` fan-in `executorResults`. -/
theorem artifacts_deterministic (K : Nat) (q : String → String → String)
    (hash : String → String) (fs : FS) (cwd srcDir : AbsPath)
    (files : List AbsPath) (t : String) (s₁ s₂ : ExecState Extracted)
    (h₁ : ExecReach K files.length (execBody q hash fs cwd files) s₁)
    (hd₁ : ExecDone files.length s₁)
    (h₂ : ExecReach K files.length (execBody q hash fs cwd files) s₂)
    (hd₂ : ExecDone files.length s₂) :
    generateLLMText (itemsForOutput (execGather dfltExtracted files.length s₁)) srcDir cwd t
      = generateLLMText (itemsForOutput (execGather dfltExtracted files.length s₂)) srcDir cwd t
    ∧ pagesJsonText (pagesJson (execGather dfltExtracted files.length s₁)) srcDir t
      = pagesJsonText (pagesJson (execGather dfltExtracted files.length s₂)) srcDir t
    ∧ execGather dfltExtracted files.length s₁ = executorResults q hash fs cwd files := by
  have e₁ : execGather dfltExtracted files.length s₁
      = (List.range files.length).map (execBody q hash fs cwd files) :=
    execGather_of_terminal h₁ hd₁
  have e₂ : execGather dfltExtracted files.length s₂
      = (List.range files.length).map (execBody q hash fs cwd files) :=
    execGather_of_terminal h₂ hd₂
  have hmap : (List.range files.length).map (execBody q hash fs cwd files)
      = executorResults q hash fs cwd files := by
    unfold execBody executorResults
    exact range_map_getD (taskBody q hash fs cwd) [] files
  rw [e₁, e₂, hmap]
  exact ⟨rfl, rfl, rfl⟩

/-- The concrete task body used by the determinism witness. -/
def bodyW : Nat → Extracted :=
  execBody (fun _ _ => "") (fun s => s) fsEmptyOk ["r"] [["r", "a.html"], ["r", "b.html"]]

/-- Witness for `artifacts_deterministic`: two complete schedules of the same
two-file run that finish their tasks in opposite orders produce identical
corpus and index artifacts. -/
theorem artifacts_deterministic_witness :
    generateLLMText (itemsForOutput (execGather dfltExtracted 2
        ⟨2, [], [(0, bodyW 0), (1, bodyW 1)]⟩)) ["r"] ["r"] "T"
      = generateLLMText (itemsForOutput (execGather dfltExtracted 2
        ⟨2, [], [(1, bodyW 1), (0, bodyW 0)]⟩)) ["r"] ["r"] "T"
    ∧ pagesJsonText (pagesJson (execGather dfltExtracted 2
        ⟨2, [], [(0, bodyW 0), (1, bodyW 1)]⟩)) ["r"] "T"
      = pagesJsonText (pagesJson (execGather dfltExtracted 2
        ⟨2, [], [(1, bodyW 1), (0, bodyW 0)]⟩)) ["r"] "T" := by
  have st1 : ExecReach 2 2 bodyW ⟨1, [0], []⟩ :=
    ExecReach.next _ _ ExecReach.init (ExecStep.start _ (by decide) (by decide))
  have st2 : ExecReach 2 2 bodyW ⟨2, [1, 0], []⟩ :=
    ExecReach.next _ _ st1 (ExecStep.start _ (by decide) (by decide))
  have sA1 : ExecReach 2 2 bodyW ⟨2, [1], [(0, bodyW 0)]⟩ :=
    ExecReach.next _ _ st2 (ExecStep.finish _ 0 (by decide))
  have sA2 : ExecReach 2 2 bodyW ⟨2, [], [(0, bodyW 0), (1, bodyW 1)]⟩ :=
    ExecReach.next _ _ sA1 (ExecStep.finish _ 1 (by decide))
  have sB1 : ExecReach 2 2 bodyW ⟨2, [0], [(1, bodyW 1)]⟩ :=
    ExecReach.next _ _ st2 (ExecStep.finish _ 1 (by decide))
  have sB2 : ExecReach 2 2 bodyW ⟨2, [], [(1, bodyW 1), (0, bodyW 0)]⟩ :=
    ExecReach.next _ _ sB1 (ExecStep.finish _ 0 (by decide))
  have h := artifacts_deterministic 2 (fun _ _ => "") (fun s => s) fsEmptyOk ["r"] ["r"]
    [["r", "a.html"], ["r", "b.html"]] "T" _ _ sA2 ⟨rfl, rfl⟩ sB2 ⟨rfl, rfl⟩
  exact ⟨h.1, h.2.1⟩

/-! ## Relative-path rendering facts (C10) -/

/-- A well-formed path segment: non-empty, not a dot-segment, and free of the
separator. -/
def validSeg (s : String) : Prop :=
  s ≠ "" ∧ s ≠ "." ∧ s ≠ ".." ∧ '/' ∉ s.data

instance (s : String) : Decidable (validSeg s) := by
  unfold validSeg; infer_instance

theorem append_slash_cancel :
    ∀ (xs ys u v : List Char), '/' ∉ xs → '/' ∉ ys →
      xs ++ '/' :: u = ys ++ '/' :: v → xs = ys ∧ u = v := by
  intro xs
  induction xs with
  | nil =>
    intro ys u v _ hys h
    cases ys with
    | nil => simpa using h
    | cons y ys' =>
      simp only [List.nil_append, List.cons_append, List.cons.injEq] at h
      exfalso
      exact hys (by rw [← h.1]; exact List.mem_cons_self '/' ys')
  | cons x xs' ih =>
    intro ys u v hxs hys h
    cases ys with
    | nil =>
      simp only [List.cons_append, List.nil_append, List.cons.injEq] at h
      exfalso
      exact hxs (by rw [h.1]; exact List.mem_cons_self '/' xs')
    | cons y ys' =>
      simp only [List.cons_append, List.cons.injEq] at h
      have hx : '/' ∉ xs' := fun hm => hxs (List.mem_cons_of_mem x hm)
      have hy : '/' ∉ ys' := fun hm => hys (List.mem_cons_of_mem y hm)
      rcases ih ys' u v hx hy h.2 with ⟨h1, h2⟩
      exact ⟨by rw [h.1, h1], h2⟩

theorem joinSegs_cons_cons (s r : String) (rest : List String) :
    joinSegs (s :: r :: rest) = s ++ "/" ++ joinSegs (r :: rest) := rfl

theorem joinSegs_data_cons_cons (s r : String) (rest : List String) :
    (joinSegs (s :: r :: rest)).data = s.data ++ '/' :: (joinSegs (r :: rest)).data := by
  rw [joinSegs_cons_cons]
  show (s.data ++ ['/']) ++ (joinSegs (r :: rest)).data = _
  rw [List.append_assoc]
  rfl

theorem joinSegs_injective :
    ∀ (l₁ l₂ : List String),
      (∀ s ∈ l₁, s ≠ "" ∧ '/' ∉ s.data) → (∀ s ∈ l₂, s ≠ "" ∧ '/' ∉ s.data) →
      joinSegs l₁ = joinSegs l₂ → l₁ = l₂ := by
  intro l₁
  induction l₁ with
  | nil =>
    intro l₂ _ hv₂ h
    cases l₂ with
    | nil => rfl
    | cons b bs =>
      exfalso
      have hb := hv₂ b (List.mem_cons_self b bs)
      cases bs with
      | nil => exact hb.1 ((show joinSegs [b] = b from rfl) ▸ h.symm)
      | cons b' bs' =>
        have hd := congrArg String.data h
        rw [joinSegs_data_cons_cons] at hd
        have hd' : ([] : List Char) = b.data ++ '/' :: (joinSegs (b' :: bs')).data := hd
        exact absurd hd'.symm (by simp)
  | cons a as ih =>
    intro l₂ hv₁ hv₂ h
    have ha := hv₁ a (List.mem_cons_self a as)
    cases l₂ with
    | nil =>
      exfalso
      cases as with
      | nil => exact ha.1 ((show joinSegs [a] = a from rfl) ▸ h)
      | cons a' as' =>
        have hd := congrArg String.data h
        rw [joinSegs_data_cons_cons] at hd
        have hd' : a.data ++ '/' :: (joinSegs (a' :: as')).data = ([] : List Char) := hd
        exact absurd hd' (by simp)
    | cons b bs =>
      have hb := hv₂ b (List.mem_cons_self b bs)
      cases as with
      | nil =>
        cases bs with
        | nil =>
          have h' : a = b := by
            rw [show joinSegs [a] = a from rfl, show joinSegs [b] = b from rfl] at h
            exact h
          rw [h']
        | cons b' bs' =>
          exfalso
          have hd := congrArg String.data h
          rw [joinSegs_data_cons_cons] at hd
          have : a.data = b.data ++ '/' :: (joinSegs (b' :: bs')).data := hd
          exact ha.2 (by
            rw [this]
            exact List.mem_append_right _ (List.mem_cons_self '/' _))
      | cons a' as' =>
        cases bs with
        | nil =>
          exfalso
          have hd := congrArg String.data h.symm
          rw [joinSegs_data_cons_cons] at hd
          have hd' : b.data = a.data ++ '/' :: (joinSegs (a' :: as')).data := hd
          exact hb.2 (by
            rw [hd']
            exact List.mem_append_right _ (List.mem_cons_self '/' _))
        | cons b' bs' =>
          have hd := congrArg String.data h
          rw [joinSegs_data_cons_cons, joinSegs_data_cons_cons] at hd
          rcases append_slash_cancel a.data b.data _ _ ha.2 hb.2 hd with ⟨h1, h2⟩
          have hab : a = b := String.ext h1
          have hJ : joinSegs (a' :: as') = joinSegs (b' :: bs') := String.ext h2
          have hrest := ih (b' :: bs')
            (fun s hs => hv₁ s (List.mem_cons_of_mem a hs))
            (fun s hs => hv₂ s (List.mem_cons_of_mem b hs)) hJ
          rw [hab, hrest]

theorem commonPrefixLen_le_left :
    ∀ a b : List String, commonPrefixLen a b ≤ a.length := by
  intro a
  induction a with
  | nil => intro b; simp [commonPrefixLen]
  | cons x xs ih =>
    intro b
    cases b with
    | nil => simp [commonPrefixLen]
    | cons y ys =>
      simp only [commonPrefixLen, List.length_cons]
      split
      · have := ih ys; omega
      · omega

theorem commonPrefixLen_le_right :
    ∀ a b : List String, commonPrefixLen a b ≤ b.length := by
  intro a
  induction a with
  | nil => intro b; simp [commonPrefixLen]
  | cons x xs ih =>
    intro b
    cases b with
    | nil => simp [commonPrefixLen]
    | cons y ys =>
      simp only [commonPrefixLen, List.length_cons]
      split
      · have := ih ys; omega
      · omega

theorem commonPrefixLen_append :
    ∀ (a r : List String), commonPrefixLen a (a ++ r) = a.length := by
  intro a r
  induction a with
  | nil => simp [commonPrefixLen]
  | cons x xs ih =>
    have hstep : commonPrefixLen (x :: xs) ((x :: xs) ++ r)
        = commonPrefixLen xs (xs ++ r) + 1 := by
      show (if x = x then commonPrefixLen xs (xs ++ r) + 1 else 0) = _
      rw [if_pos rfl]
    rw [hstep, ih, List.length_cons]

theorem commonPrefixLen_full_take :
    ∀ (a b : List String), commonPrefixLen a b = a.length → b.take a.length = a := by
  intro a
  induction a with
  | nil => intro b _; simp
  | cons x xs ih =>
    intro b h
    cases b with
    | nil => simp [commonPrefixLen] at h
    | cons y ys =>
      simp only [commonPrefixLen, List.length_cons] at h
      split at h
      · rename_i hxy
        have h' : commonPrefixLen xs ys = xs.length := by omega
        rw [List.length_cons, List.take_succ_cons, ih ys h', hxy]
      · omega

/-- C10: the per-file section delimiter of the corpus renders the file's
path relative to the process working directory (`relTo cwd`, line 358 via
`makeFileHeader`), while the TOC row for the same file renders it relative to
the source root (`relTo srcDir`, lines 135/156); whenever the working
directory differs from the source root, the two rendered paths differ for
every file lying strictly below the source root. -/
theorem corpus_vs_toc_relative_paths (cwd src rest : List String)
    (hvalid : ∀ s ∈ src ++ rest, validSeg s) (hrest : rest ≠ [])
    (hne : cwd ≠ src) :
    relTo cwd (src ++ rest) ≠ relTo src (src ++ rest) := by
  intro heq
  have h2 : pathRelative src (src ++ rest) = rest := by
    unfold pathRelative
    rw [commonPrefixLen_append, Nat.sub_self, List.drop_left]
    simp
  have hv1 : ∀ s ∈ pathRelative cwd (src ++ rest), s ≠ "" ∧ '/' ∉ s.data := by
    intro s hs
    unfold pathRelative at hs
    rcases List.mem_append.mp hs with hs | hs
    · have hdd : s = ".." := List.eq_of_mem_replicate hs
      subst hdd
      exact ⟨by decide, by decide⟩
    · have hmem : s ∈ src ++ rest := List.mem_of_mem_drop hs
      have hval := hvalid s hmem
      exact ⟨hval.1, hval.2.2.2⟩
  have hv2 : ∀ s ∈ rest, s ≠ "" ∧ '/' ∉ s.data := by
    intro s hs
    have hval := hvalid s (List.mem_append_right src hs)
    exact ⟨hval.1, hval.2.2.2⟩
  have hlists : pathRelative cwd (src ++ rest) = rest := by
    apply joinSegs_injective _ _ hv1 hv2
    unfold relTo at heq
    rw [heq, h2]
  unfold pathRelative at hlists
  rcases Nat.eq_zero_or_pos (cwd.length - commonPrefixLen cwd (src ++ rest)) with hk | hk
  · rw [hk, List.replicate_zero, List.nil_append] at hlists
    have hc_le : commonPrefixLen cwd (src ++ rest) ≤ cwd.length :=
      commonPrefixLen_le_left _ _
    have hc_eq : commonPrefixLen cwd (src ++ rest) = cwd.length := by omega
    have hlen := congrArg List.length hlists
    rw [List.length_drop, List.length_append] at hlen
    have hcp : commonPrefixLen cwd (src ++ rest) ≤ (src ++ rest).length :=
      commonPrefixLen_le_right _ _
    rw [List.length_append] at hcp
    have hlen_eq : cwd.length = src.length := by omega
    have htake1 : (src ++ rest).take cwd.length = cwd :=
      commonPrefixLen_full_take cwd (src ++ rest) hc_eq
    have htake2 : (src ++ rest).take src.length = src := List.take_left src rest
    rw [hlen_eq, htake2] at htake1
    exact hne htake1.symm
  · cases hkv : cwd.length - commonPrefixLen cwd (src ++ rest) with
    | zero => omega
    | succ k' =>
      rw [hkv, List.replicate_succ, List.cons_append] at hlists
      cases rest with
      | nil => exact hrest rfl
      | cons r0 rest' =>
        injection hlists with h1 _
        have hval := hvalid r0 (List.mem_append_right src (List.mem_cons_self r0 rest'))
        exact hval.2.2.1 h1.symm

/-- Witness for `corpus_vs_toc_relative_paths`: with working directory
`/home` and source root `/site`, the file `/site/x.html` renders as
`../site/x.html` in a corpus section header but as `x.html` in its TOC row. -/
theorem corpus_vs_toc_relative_paths_witness :
    relTo ["home"] (["site"] ++ ["x.html"]) ≠ relTo ["site"] (["site"] ++ ["x.html"]) :=
  corpus_vs_toc_relative_paths ["home"] ["site"] ["x.html"] (by decide) (by decide)
    (by decide)

/-- Witness for `aggregator_sort_and_partition` at a concrete two-file run:
the sorted list is a permutation of the executor's list and every successful
record comes from it. -/
theorem aggregator_sort_partition_witness :
    (sortedExtractions (executorResults (fun _ _ => "") (fun s => s) fsEmptyOk
        ["h"] [["h", "B.html"], ["h", "a.html"]])).Perm
      (executorResults (fun _ _ => "") (fun s => s) fsEmptyOk
        ["h"] [["h", "B.html"], ["h", "a.html"]])
    ∧ ∀ e ∈ successfulExtractions (executorResults (fun _ _ => "") (fun s => s) fsEmptyOk
        ["h"] [["h", "B.html"], ["h", "a.html"]]),
        e ∈ executorResults (fun _ _ => "") (fun s => s) fsEmptyOk
          ["h"] [["h", "B.html"], ["h", "a.html"]] :=
  ⟨(aggregator_sort_and_partition _).1, (aggregator_sort_and_partition _).2.2.2⟩
